import Mathlib

/-!
# Verification of `kvdb-file` (`InFile`), a file-backed key-value store

Shallow embedding of `src/lib.rs`.  The store persists each `(column, key)`
pair as one file `<root>/<col>/0x<lowercase hex of key>` and mirrors all data
into an in-memory index (`kvdb_memorydb::InMemory`) used for every read.

Modelling conventions:
* Bytes are `Fin 256` (`Vec<u8>` entries).
* A column directory is an association list `DiskCol` from file name to file
  contents, in directory-enumeration order; every entry stands for a regular
  file (non-file entries are skipped by the code and are not modelled).
  `fs::write` overwrites an existing entry in place or appends a new one.
* File names are modelled as strings of one-byte characters, so the byte
  index in Rust's `&name[2..]` coincides with the character index; the Rust
  panic on slicing a name shorter than two bytes is modelled as
  `Except.error ()`.
* The filesystem and the `InMemory` mirror are bundled in one state record
  `Store`; disk-side I/O failures are injected per operation through a
  boolean oracle in `InFile.write`.
* The in-memory engine `kvdb_memorydb` is an external collaborator of the
  repository; it is modelled from the spec (a correct per-column map with
  put / delete / delete-by-byte-prefix / lookup / iterate, erroring on a
  column index at or beyond the configured column count).
-/

/-- A byte, as stored in keys and values (`u8`). -/
abbrev Byte := Fin 256

/-- `hex::encode`'s digit for a nibble: `0`-`9` then lowercase `a`-`f`. -/
def hexDigitChar (n : Nat) : Char :=
  if n < 10 then Char.ofNat (48 + n) else Char.ofNat (87 + n)

/-- Lowercase hex encoding of one byte, most significant nibble first. -/
def hexEncByte (b : Byte) : List Char :=
  [hexDigitChar (b.val / 16), hexDigitChar (b.val % 16)]

/-- `hex::encode`: lowercase hex encoding of a byte string. -/
def hexEncode : List Byte → List Char
  | [] => []
  | b :: k => hexEncByte b ++ hexEncode k

/-- Value of one hex digit (`0`-`9`, `a`-`f`, `A`-`F`), as `hex::decode`
accepts it. -/
def hexVal (c : Char) : Option (Fin 16) :=
  if h : 48 ≤ c.toNat ∧ c.toNat ≤ 57 then some ⟨c.toNat - 48, by omega⟩
  else if h : 97 ≤ c.toNat ∧ c.toNat ≤ 102 then some ⟨c.toNat - 87, by omega⟩
  else if h : 65 ≤ c.toNat ∧ c.toNat ≤ 70 then some ⟨c.toNat - 55, by omega⟩
  else none

/-- `hex::decode`: two digits per byte, `none` on odd length or any
non-hex-digit character. -/
def hexDecode : List Char → Option (List Byte)
  | [] => some []
  | [_] => none
  | hi :: lo :: rest =>
    match hexVal hi, hexVal lo, hexDecode rest with
    | some h, some l, some k =>
      some (⟨16 * h.val + l.val, by
        have hh := h.isLt
        have hl := l.isLt
        omega⟩ :: k)
    | _, _, _ => none

/-- The file name `InFile::key2file` gives a key: `format!("0x{}", hex::encode(key))`. -/
def keyName (k : List Byte) : String :=
  String.mk ('0' :: 'x' :: hexEncode k)

/-- `InFile::key2file`: the path `<root>/<col>/0x<hex(key)>`, as its list of
components (`PathBuf::push` of the column index then the file name). -/
def key2file (root : String) (col : Nat) (key : List Byte) : List String :=
  [root, toString col, keyName key]

/-- `InFile::file2key` applied to a file name: Rust slices `&name[2..]`
(panicking — modelled as `Except.error ()` — when the name is shorter than
two bytes) and returns `Some key` exactly when `hex::decode` succeeds on the
remainder.  Note the code never checks that the two sliced-off characters
are `"0x"`. -/
def nameKey (name : String) : Except Unit (Option (List Byte)) :=
  if name.length < 2 then .error ()
  else .ok (hexDecode (name.data.drop 2))

/-- `InFile::file2key` on a path (list of components): look at the file name
(the last component, `Path::file_name`), returning `None` when there is
none. -/
def file2key (p : List String) : Except Unit (Option (List Byte)) :=
  match p.getLast? with
  | some name => nameKey name
  | none => .ok none

-- Round-trip facts about the codec.

theorem hexVal_hexDigitChar : ∀ n : Fin 16, hexVal (hexDigitChar n.val) = some n := by
  decide

theorem hexDigitChar_not_upper : ∀ n : Fin 16, (hexDigitChar n.val).isUpper = false := by
  decide

theorem hexDecode_hexEncode (k : List Byte) : hexDecode (hexEncode k) = some k := by
  induction k with
  | nil => rfl
  | cons b t ih =>
    have hdiv : b.val / 16 < 16 := by
      have := b.isLt
      omega
    have hmod : b.val % 16 < 16 := Nat.mod_lt _ (by omega)
    have h1 : hexVal (hexDigitChar (b.val / 16)) = some ⟨b.val / 16, hdiv⟩ :=
      hexVal_hexDigitChar ⟨b.val / 16, hdiv⟩
    have h2 : hexVal (hexDigitChar (b.val % 16)) = some ⟨b.val % 16, hmod⟩ :=
      hexVal_hexDigitChar ⟨b.val % 16, hmod⟩
    show hexDecode (hexDigitChar (b.val / 16) :: hexDigitChar (b.val % 16) :: hexEncode t)
        = some (b :: t)
    rw [hexDecode, h1, h2, ih]
    show some ((⟨16 * (b.val / 16) + b.val % 16, by
        have := b.isLt
        omega⟩ : Byte) :: t) = some (b :: t)
    simp only [Option.some.injEq, List.cons.injEq, Fin.ext_iff]
    exact ⟨by omega, trivial⟩

theorem nameKey_keyName (k : List Byte) : nameKey (keyName k) = .ok (some k) := by
  have hlen : ¬ (keyName k).length < 2 := by
    show ¬ ('0' :: 'x' :: hexEncode k).length < 2
    simp
  rw [nameKey, if_neg hlen]
  show Except.ok (hexDecode (('0' :: 'x' :: hexEncode k).drop 2)) = _
  rw [List.drop, List.drop, List.drop_zero, hexDecode_hexEncode]

theorem keyName_inj {a b : List Byte} (h : keyName a = keyName b) : a = b := by
  have ha := nameKey_keyName a
  have hb := nameKey_keyName b
  rw [h, hb] at ha
  simpa using ha.symm

/-! ## Column-indexed state

`getCol l i` / `setCol l i x` model indexing the per-column containers (the
root directory's numbered subdirectories, and the mirror's column map): a
missing column reads as empty and a write to a missing column is dropped. -/

/-- Read the `i`-th column of a column list, empty when out of range. -/
def getCol {α : Type} : List (List α) → Nat → List α
  | [], _ => []
  | x :: _, 0 => x
  | _ :: r, n + 1 => getCol r n

/-- Replace the `i`-th column of a column list (identity out of range). -/
def setCol {α : Type} : List (List α) → Nat → List α → List (List α)
  | [], _, _ => []
  | _ :: r, 0, x => x :: r
  | y :: r, n + 1, x => y :: setCol r n x

theorem length_setCol {α : Type} :
    ∀ (l : List (List α)) (i : Nat) (x : List α), (setCol l i x).length = l.length := by
  intro l
  induction l with
  | nil => intro i x; rfl
  | cons y r ih =>
    intro i x
    cases i with
    | zero => rfl
    | succ n => show (y :: setCol r n x).length = _; simp [ih]

theorem getCol_setCol_self {α : Type} :
    ∀ (l : List (List α)) (i : Nat) (x : List α), i < l.length →
      getCol (setCol l i x) i = x := by
  intro l
  induction l with
  | nil => intro i x h; simp at h
  | cons y r ih =>
    intro i x h
    cases i with
    | zero => rfl
    | succ n => exact ih n x (by simpa using h)

theorem getCol_setCol_ne {α : Type} :
    ∀ (l : List (List α)) (i j : Nat) (x : List α), i ≠ j →
      getCol (setCol l i x) j = getCol l j := by
  intro l
  induction l with
  | nil => intro i j x _; rfl
  | cons y r ih =>
    intro i j x hne
    cases i with
    | zero =>
      cases j with
      | zero => exact absurd rfl hne
      | succ m => rfl
    | succ n =>
      cases j with
      | zero => rfl
      | succ m => exact ih n m x (fun h => hne (by rw [h]))

theorem setCol_oob {α : Type} :
    ∀ (l : List (List α)) (i : Nat) (x : List α), l.length ≤ i → setCol l i x = l := by
  intro l
  induction l with
  | nil => intro i x _; rfl
  | cons y r ih =>
    intro i x h
    cases i with
    | zero => simp at h
    | succ n => show y :: setCol r n x = y :: r; rw [ih n x (by simpa using h)]

theorem getCol_oob {α : Type} :
    ∀ (l : List (List α)) (i : Nat), l.length ≤ i → getCol l i = [] := by
  intro l
  induction l with
  | nil => intro i _; rfl
  | cons y r ih =>
    intro i h
    cases i with
    | zero => simp at h
    | succ n => exact ih n (by simpa using h)

theorem setCol_setCol {α : Type} :
    ∀ (l : List (List α)) (i : Nat) (x y : List α),
      setCol (setCol l i x) i y = setCol l i y := by
  intro l
  induction l with
  | nil => intro i x y; rfl
  | cons z r ih =>
    intro i x y
    cases i with
    | zero => rfl
    | succ n => show z :: setCol (setCol r n x) n y = z :: setCol r n y; rw [ih]

theorem setCol_getCol_self {α : Type} :
    ∀ (l : List (List α)) (i : Nat), setCol l i (getCol l i) = l := by
  intro l
  induction l with
  | nil => intro i; rfl
  | cons y r ih =>
    intro i
    cases i with
    | zero => rfl
    | succ n => show y :: setCol r n (getCol r n) = y :: r; rw [ih]

theorem getCol_replicate {α : Type} :
    ∀ (n i : Nat), getCol (List.replicate n ([] : List α)) i = [] := by
  intro n
  induction n with
  | zero => intro i; rfl
  | succ m ih =>
    intro i
    cases i with
    | zero => rfl
    | succ j => exact ih j

/-! ## Disk model

One column directory: file name ↦ file contents, every entry a regular
file. -/

/-- Contents of one column directory, in enumeration order. -/
abbrev DiskCol := List (String × List Byte)

/-- All column directories of the store's root. -/
abbrev DiskState := List DiskCol

/-- `fs::write`: create the file or overwrite it in place. -/
def fsWrite (d : DiskCol) (name : String) (v : List Byte) : DiskCol :=
  match d with
  | [] => [(name, v)]
  | e :: rest => if e.1 = name then (name, v) :: rest else e :: fsWrite rest name v

/-- `fs::remove_file`: drop the entry with the given name. -/
def fsRemove (d : DiskCol) (name : String) : DiskCol :=
  match d with
  | [] => []
  | e :: rest => if e.1 = name then fsRemove rest name else e :: fsRemove rest name

/-- `Path::is_file` on `<dir>/<name>`: is there an entry with this name? -/
def hasName (d : DiskCol) (name : String) : Bool :=
  match d with
  | [] => false
  | e :: rest => if e.1 = name then true else hasName rest name

/-- `<[u8]>::starts_with`: byte-for-byte prefix test. -/
def bytesPre : List Byte → List Byte → Bool
  | [], _ => true
  | _ :: _, [] => false
  | a :: as, b :: bs => if a = b then bytesPre as bs else false

/-- The `DeletePrefix` directory scan for a non-empty prefix: decode each
file name via `file2key` (propagating its panic) and remove the file when
the decoded key starts with the prefix; undecodable names are kept. -/
def deletePreScan (p : List Byte) : DiskCol → Except Unit DiskCol
  | [] => .ok []
  | e :: rest =>
    match nameKey e.1 with
    | .error u => .error u
    | .ok o =>
      match deletePreScan p rest with
      | .error u => .error u
      | .ok rest' =>
        match o with
        | some k => if bytesPre p k then .ok rest' else .ok (e :: rest')
        | none => .ok (e :: rest')

/-- The `DBOp::DeletePrefix` arm's effect on one column directory: an empty
prefix removes every regular file; otherwise the directory is scanned. -/
def deletePreDisk (d : DiskCol) (p : List Byte) : Except Unit DiskCol :=
  if p.isEmpty then .ok [] else deletePreScan p d

/-! ## Mirror model

Modelled from the spec: the in-memory engine `kvdb_memorydb::InMemory` is an
external collaborator (its source is not part of this repository); the spec
treats it as a correct per-column key-value map: `put` inserts or replaces,
`delete` drops a key, `delete_prefix` drops every key starting with the
prefix bytes, `get` is a point lookup, `get_by_prefix` returns the first
matching entry, iteration lists a column, and `get` on a column index at or
beyond the configured column count fails with an error. -/

/-- One mirror column: key ↦ value. -/
abbrev MirrorCol := List (List Byte × List Byte)

/-- All mirror columns. -/
abbrev MirrorState := List MirrorCol

/-- Mirror put: replace in place or append. -/
def mPut (m : MirrorCol) (k v : List Byte) : MirrorCol :=
  match m with
  | [] => [(k, v)]
  | e :: rest => if e.1 = k then (k, v) :: rest else e :: mPut rest k v

/-- Mirror delete. -/
def mDel (m : MirrorCol) (k : List Byte) : MirrorCol :=
  match m with
  | [] => []
  | e :: rest => if e.1 = k then mDel rest k else e :: mDel rest k

/-- Mirror delete-prefix: drop every key starting with `p`. -/
def mDelPre (m : MirrorCol) (p : List Byte) : MirrorCol :=
  match m with
  | [] => []
  | e :: rest => if bytesPre p e.1 then mDelPre rest p else e :: mDelPre rest p

/-- Mirror point lookup inside one column. -/
def mLookup (m : MirrorCol) (k : List Byte) : Option (List Byte) :=
  match m with
  | [] => none
  | e :: rest => if e.1 = k then some e.2 else mLookup rest k

/-- First entry of the column whose key starts with `p`. -/
def mFindPre (m : MirrorCol) (p : List Byte) : Option (List Byte × List Byte) :=
  match m with
  | [] => none
  | e :: rest => if bytesPre p e.1 then some e else mFindPre rest p

/-- Entries of the column whose key starts with `p`, in order. -/
def mFilterPre (m : MirrorCol) (p : List Byte) : MirrorCol :=
  match m with
  | [] => []
  | e :: rest => if bytesPre p e.1 then e :: mFilterPre rest p else mFilterPre rest p

/-- Is `k` present in the column? -/
def hasKey (m : MirrorCol) (k : List Byte) : Bool :=
  match m with
  | [] => false
  | e :: rest => if e.1 = k then true else hasKey rest k

/-- All keys of the column distinct. -/
def keysUnique (m : MirrorCol) : Bool :=
  match m with
  | [] => true
  | e :: rest => !hasKey rest e.1 && keysUnique rest

/-- `InMemory::get`: error on a column at or beyond the column count,
otherwise a point lookup. -/
def mGet (mir : MirrorState) (c : Nat) (k : List Byte) : Except Unit (Option (List Byte)) :=
  if c < mir.length then .ok (mLookup (getCol mir c) k) else .error ()

/-- `InMemory::get_by_prefix`: value of the first matching entry. -/
def mGetByPre (mir : MirrorState) (c : Nat) (p : List Byte) :
    Except Unit (Option (List Byte)) :=
  if c < mir.length then .ok ((mFindPre (getCol mir c) p).map (·.2)) else .error ()

/-- `InMemory::iter`: snapshot of one column. -/
def mIter (mir : MirrorState) (c : Nat) : MirrorCol :=
  getCol mir c

/-- `InMemory::iter_with_prefix`: snapshot of the matching entries. -/
def mIterWithPre (mir : MirrorState) (c : Nat) (p : List Byte) : MirrorCol :=
  mFilterPre (getCol mir c) p

/-! ## Store state and transactions -/

/-- `kvdb::DBOp`; `deletePre` models `DBOp::DeletePrefix`. -/
inductive DBOp : Type where
  | insert (col : Nat) (key : List Byte) (value : List Byte)
  | delete (col : Nat) (key : List Byte)
  | deletePre (col : Nat) (p : List Byte)
deriving DecidableEq, Repr

/-- The store: the root directory's contents together with the `InFile`
struct's `in_memory` mirror (the `path` field is left implicit — paths are
kept as component lists and the root component never influences any
computation). -/
structure Store : Type where
  disk : DiskState
  mirror : MirrorState
deriving DecidableEq, Repr

/-- Disk side of one operation of `InFile::write` (`self.path` and the colum
index locate the directory):
* `Insert` writes the key's file;
* `Delete` removes the key's file only when it exists (`is_file`), a silent
  no-op otherwise;
* `DeletePrefix` clears or scans the column directory. -/
def applyOpDisk (disk : DiskState) : DBOp → Except Unit DiskState
  | .insert col k v =>
    .ok (setCol disk col (fsWrite (getCol disk col) (keyName k) v))
  | .delete col k =>
    let d := getCol disk col
    .ok (setCol disk col (if hasName d (keyName k) then fsRemove d (keyName k) else d))
  | .deletePre col p =>
    match deletePreDisk (getCol disk col) p with
    | .error u => .error u
    | .ok d' => .ok (setCol disk col d')

/-- Mirror side of one operation (modelled from the spec, see above). -/
def applyOpMirror (mir : MirrorState) : DBOp → MirrorState
  | .insert col k v => setCol mir col (mPut (getCol mir col) k v)
  | .delete col k => setCol mir col (mDel (getCol mir col) k)
  | .deletePre col p => setCol mir col (mDelPre (getCol mir col) p)

/-- `InMemory::write`: the whole transaction applied to the mirror. -/
def mirrorWrite (mir : MirrorState) : List DBOp → MirrorState
  | [] => mir
  | op :: ops => mirrorWrite (applyOpMirror mir op) ops

/-- The disk-side loop of `InFile::write` without injected failures: each
operation fully applied before the next. -/
def diskApply (disk : DiskState) : List DBOp → Except Unit DiskState
  | [] => .ok disk
  | op :: ops =>
    match applyOpDisk disk op with
    | .error u => .error u
    | .ok d => diskApply d ops

/-- The disk-side loop of `InFile::write` with an I/O-failure oracle:
`fails i = true` makes the `i`-th operation's filesystem step fail.  Returns
the disk contents reached together with the index of the failing operation,
if any; the scan panic is still propagated as `Except.error`. -/
def diskApplyF (fails : Nat → Bool) (disk : DiskState) :
    List DBOp → Except Unit (DiskState × Option Nat)
  | [] => .ok (disk, none)
  | op :: ops =>
    if fails 0 then .ok (disk, some 0)
    else
      match applyOpDisk disk op with
      | .error u => .error u
      | .ok d =>
        match diskApplyF (fun j => fails (j + 1)) d ops with
        | .error u => .error u
        | .ok (d', none) => .ok (d', none)
        | .ok (d', some i) => .ok (d', some (i + 1))

/-- Index of the first failing operation among the first `n`, if any. -/
def firstFailIdx (fails : Nat → Bool) : Nat → Option Nat
  | 0 => none
  | n + 1 =>
    if fails 0 then some 0
    else (firstFailIdx (fun j => fails (j + 1)) n).map (· + 1)

/-- Outcome of `InFile::write`: `ok` with the new state, or `err` carrying
the state left behind (partially mutated disk, untouched mirror) and the
index of the operation whose disk step failed. -/
inductive WriteOut : Type where
  | ok (s : Store)
  | err (s : Store) (i : Nat)
deriving DecidableEq, Repr

/-- `InFile::write` under the failure oracle: run every operation's disk
step in order; on the first injected failure return the error at once,
leaving already-applied operations on disk and the mirror untouched.  Only
after every disk step succeeded is the identical transaction submitted once
to the mirror. -/
def InFile.write (fails : Nat → Bool) (s : Store) (ops : List DBOp) :
    Except Unit WriteOut :=
  match diskApplyF fails s.disk ops with
  | .error u => .error u
  | .ok (d, some i) => .ok (.err ⟨d, s.mirror⟩ i)
  | .ok (d, none) => .ok (.ok ⟨d, mirrorWrite s.mirror ops⟩)

/-- `InFile::write` on a run where no filesystem step fails (the successful
transactions the algebraic claims quantify over); `write_noFail` below ties
it to `InFile.write`. -/
def writeTxn (s : Store) (ops : List DBOp) : Except Unit Store :=
  match diskApply s.disk ops with
  | .error u => .error u
  | .ok d => .ok ⟨d, mirrorWrite s.mirror ops⟩

/-- A sequence of successful transactions. -/
def applyTxns (s : Store) : List (List DBOp) → Except Unit Store
  | [] => .ok s
  | t :: ts =>
    match writeTxn s t with
    | .error u => .error u
    | .ok s' => applyTxns s' ts

/-! ## `InFile::open` -/

/-- The loading scan of one column directory in `InFile::open`: for every
regular file whose name decodes (`file2key`, panic propagated), stage
`txn.put_vec(col, key, contents)`; undecodable names are skipped. -/
def loadColOps (c : Nat) : DiskCol → Except Unit (List DBOp)
  | [] => .ok []
  | e :: rest =>
    match nameKey e.1 with
    | .error u => .error u
    | .ok o =>
      match loadColOps c rest with
      | .error u => .error u
      | .ok ops =>
        match o with
        | some k => .ok (.insert c k e.2 :: ops)
        | none => .ok ops

/-- The column loop of `open`, scanning directories `c`, `c+1`, … in
order. -/
def openOpsFrom (c : Nat) : DiskState → Except Unit (List DBOp)
  | [] => .ok []
  | d :: rest =>
    match loadColOps c d with
    | .error u => .error u
    | .ok ops =>
      match openOpsFrom (c + 1) rest with
      | .error u => .error u
      | .ok more => .ok (ops ++ more)

/-- `fs::create_dir_all` for columns `0..n`: the first `n` column
directories, a missing one created empty (directories beyond `n` are never
scanned nor written and are dropped from the modelled root). -/
def normCols : Nat → DiskState → DiskState
  | 0, _ => []
  | n + 1, [] => [] :: normCols n []
  | n + 1, d :: rest => d :: normCols n rest

/-- `InFile::open`: ensure the `n` column directories exist, stage one big
transaction of every decodable file's `(key, contents)`, and apply it to a
fresh `n`-column mirror. -/
def openStore (n : Nat) (disk : DiskState) : Except Unit Store :=
  let nd := normCols n disk
  match openOpsFrom 0 nd with
  | .error u => .error u
  | .ok ops => .ok ⟨nd, mirrorWrite (List.replicate n []) ops⟩

/-! ## The read facade (`KeyValueDB` impl): pure delegation to the mirror -/

/-- `InFile::get`: `self.in_memory.get(col, key)`. -/
def InFile.get (s : Store) (c : Nat) (k : List Byte) : Except Unit (Option (List Byte)) :=
  mGet s.mirror c k

/-- `InFile::get_by_prefix`: `self.in_memory.get_by_prefix(col, prefix)`. -/
def InFile.getByPre (s : Store) (c : Nat) (p : List Byte) :
    Except Unit (Option (List Byte)) :=
  mGetByPre s.mirror c p

/-- `InFile::iter`: `self.in_memory.iter(col)`. -/
def InFile.iter (s : Store) (c : Nat) : MirrorCol :=
  mIter s.mirror c

/-- `InFile::iter_with_prefix`: `self.in_memory.iter_with_prefix(col, prefix)`. -/
def InFile.iterWithPre (s : Store) (c : Nat) (p : List Byte) : MirrorCol :=
  mIterWithPre s.mirror c p

/-! ## Basic lemmas -/

instance {ε α : Type} [DecidableEq ε] [DecidableEq α] : DecidableEq (Except ε α) := by
  intro x y
  cases x with
  | error a =>
    cases y with
    | error b =>
      by_cases h : a = b
      · exact .isTrue (by rw [h])
      · exact .isFalse (fun hc => h (by cases hc; rfl))
    | ok b => exact .isFalse (fun hc => Except.noConfusion hc)
  | ok a =>
    cases y with
    | error b => exact .isFalse (fun hc => Except.noConfusion hc)
    | ok b =>
      by_cases h : a = b
      · exact .isTrue (by rw [h])
      · exact .isFalse (fun hc => h (by cases hc; rfl))

theorem bytesPre_nil (k : List Byte) : bytesPre [] k = true := rfl

theorem mDelPre_nil_all (m : MirrorCol) : mDelPre m [] = [] := by
  induction m with
  | nil => rfl
  | cons e rest ih => show (if bytesPre [] e.1 then mDelPre rest [] else _) = []; simp [bytesPre_nil, ih]

theorem mPut_absent (m : MirrorCol) (k v : List Byte) (h : hasKey m k = false) :
    mPut m k v = m ++ [(k, v)] := by
  induction m with
  | nil => rfl
  | cons e rest ih =>
    rw [hasKey] at h
    by_cases he : e.1 = k
    · rw [if_pos he] at h; exact absurd h (by simp)
    · rw [if_neg he] at h
      show (if e.1 = k then _ else e :: mPut rest k v) = _
      rw [if_neg he, ih h]
      rfl

theorem hasKey_mPut_ne (m : MirrorCol) (k v j : List Byte) (h : j ≠ k) :
    hasKey (mPut m k v) j = hasKey m j := by
  have hkj : ¬ k = j := fun hc => h hc.symm
  induction m with
  | nil =>
    show (if k = j then true else false) = false
    rw [if_neg hkj]
  | cons e rest ih =>
    by_cases he : e.1 = k
    · rw [mPut, if_pos he, hasKey, hasKey, if_neg hkj, if_neg (by rw [he]; exact hkj)]
    · rw [mPut, if_neg he, hasKey, hasKey, ih]

theorem keysUnique_mPut (m : MirrorCol) (k v : List Byte) (h : keysUnique m = true) :
    keysUnique (mPut m k v) = true := by
  induction m with
  | nil => rfl
  | cons e rest ih =>
    rw [keysUnique, Bool.and_eq_true, Bool.not_eq_true'] at h
    by_cases he : e.1 = k
    · rw [mPut, if_pos he, keysUnique, Bool.and_eq_true, Bool.not_eq_true']
      exact ⟨by rw [← he]; exact h.1, h.2⟩
    · rw [mPut, if_neg he, keysUnique, Bool.and_eq_true, Bool.not_eq_true']
      refine ⟨?_, ih h.2⟩
      rw [hasKey_mPut_ne rest k v e.1 he, h.1]

theorem hasKey_of_mDel (m : MirrorCol) (k j : List Byte) (h : hasKey (mDel m k) j = true) :
    hasKey m j = true := by
  induction m with
  | nil => exact h
  | cons e rest ih =>
    rw [mDel] at h
    by_cases he : e.1 = k
    · rw [if_pos he] at h
      rw [hasKey]
      by_cases hj : e.1 = j
      · rw [if_pos hj]
      · rw [if_neg hj]; exact ih h
    · rw [if_neg he, hasKey] at h
      rw [hasKey]
      by_cases hj : e.1 = j
      · rw [if_pos hj]
      · rw [if_neg hj] at h ⊢; exact ih h

theorem keysUnique_mDel (m : MirrorCol) (k : List Byte) (h : keysUnique m = true) :
    keysUnique (mDel m k) = true := by
  induction m with
  | nil => rfl
  | cons e rest ih =>
    rw [keysUnique, Bool.and_eq_true, Bool.not_eq_true'] at h
    rw [mDel]
    by_cases he : e.1 = k
    · rw [if_pos he]; exact ih h.2
    · rw [if_neg he, keysUnique, Bool.and_eq_true, Bool.not_eq_true']
      refine ⟨?_, ih h.2⟩
      by_cases hd : hasKey (mDel rest k) e.1 = true
      · rw [hasKey_of_mDel rest k e.1 hd] at h; exact absurd h.1 (by simp)
      · exact Bool.not_eq_true _ ▸ hd

theorem hasKey_of_mDelPre (m : MirrorCol) (p j : List Byte)
    (h : hasKey (mDelPre m p) j = true) : hasKey m j = true := by
  induction m with
  | nil => exact h
  | cons e rest ih =>
    rw [mDelPre] at h
    rw [hasKey]
    by_cases hj : e.1 = j
    · rw [if_pos hj]
    · rw [if_neg hj]
      by_cases hp : bytesPre p e.1 = true
      · rw [if_pos hp] at h; exact ih h
      · rw [if_neg hp, hasKey, if_neg hj] at h; exact ih h

theorem keysUnique_mDelPre (m : MirrorCol) (p : List Byte) (h : keysUnique m = true) :
    keysUnique (mDelPre m p) = true := by
  induction m with
  | nil => rfl
  | cons e rest ih =>
    rw [keysUnique, Bool.and_eq_true, Bool.not_eq_true'] at h
    rw [mDelPre]
    by_cases hp : bytesPre p e.1 = true
    · rw [if_pos hp]; exact ih h.2
    · rw [if_neg hp, keysUnique, Bool.and_eq_true, Bool.not_eq_true']
      refine ⟨?_, ih h.2⟩
      by_cases hd : hasKey (mDelPre rest p) e.1 = true
      · rw [hasKey_of_mDelPre rest p e.1 hd] at h; exact absurd h.1 (by simp)
      · exact Bool.not_eq_true _ ▸ hd

theorem mDel_absent (m : MirrorCol) (k : List Byte) (h : hasKey m k = false) :
    mDel m k = m := by
  induction m with
  | nil => rfl
  | cons e rest ih =>
    rw [hasKey] at h
    by_cases he : e.1 = k
    · rw [if_pos he] at h; exact absurd h (by simp)
    · rw [if_neg he] at h
      rw [mDel, if_neg he, ih h]

theorem mLookup_mPut_self (m : MirrorCol) (k v : List Byte) :
    mLookup (mPut m k v) k = some v := by
  induction m with
  | nil => show (if k = k then some v else _) = _; rw [if_pos rfl]
  | cons e rest ih =>
    by_cases he : e.1 = k
    · rw [mPut, if_pos he, mLookup, if_pos rfl]
    · rw [mPut, if_neg he, mLookup, if_neg he, ih]

theorem mLookup_mPut_ne (m : MirrorCol) (k v j : List Byte) (h : j ≠ k) :
    mLookup (mPut m k v) j = mLookup m j := by
  have hkj : ¬ k = j := fun hc => h hc.symm
  induction m with
  | nil =>
    show (if k = j then some v else none) = none
    rw [if_neg hkj]
  | cons e rest ih =>
    by_cases he : e.1 = k
    · rw [mPut, if_pos he, mLookup, mLookup, if_neg hkj, if_neg (by rw [he]; exact hkj)]
    · rw [mPut, if_neg he, mLookup, mLookup, ih]

theorem mLookup_mDel_self (m : MirrorCol) (k : List Byte) :
    mLookup (mDel m k) k = none := by
  induction m with
  | nil => rfl
  | cons e rest ih =>
    by_cases he : e.1 = k
    · rw [mDel, if_pos he, ih]
    · rw [mDel, if_neg he, mLookup, if_neg he, ih]

theorem mLookup_mDel_ne (m : MirrorCol) (k j : List Byte) (h : j ≠ k) :
    mLookup (mDel m k) j = mLookup m j := by
  induction m with
  | nil => rfl
  | cons e rest ih =>
    by_cases he : e.1 = k
    · rw [mDel, if_pos he, ih, mLookup, if_neg (by rw [he]; exact fun hc => h hc.symm)]
    · rw [mDel, if_neg he, mLookup, mLookup, ih]

theorem mLookup_mDelPre_notPre (m : MirrorCol) (p k : List Byte)
    (h : bytesPre p k = false) : mLookup (mDelPre m p) k = mLookup m k := by
  induction m with
  | nil => rfl
  | cons e rest ih =>
    by_cases hp : bytesPre p e.1 = true
    · have hek : ¬ e.1 = k := fun hc => by rw [hc, h] at hp; exact Bool.noConfusion hp
      rw [mDelPre, if_pos hp, ih, mLookup, if_neg hek]
    · rw [mDelPre, if_neg hp, mLookup, mLookup, ih]

/-! ## Disk is the image of the mirror under the path codec -/

/-- The disk image of a mirror column: each `(key, value)` entry stored under
its encoded file name. -/
def mapF (m : MirrorCol) : DiskCol :=
  m.map (fun e => (keyName e.1, e.2))

theorem hasName_mapF (m : MirrorCol) (k : List Byte) :
    hasName (mapF m) (keyName k) = hasKey m k := by
  induction m with
  | nil => rfl
  | cons e rest ih =>
    show (if keyName e.1 = keyName k then true else hasName (mapF rest) (keyName k)) = _
    by_cases he : e.1 = k
    · rw [if_pos (by rw [he]), hasKey, if_pos he]
    · rw [if_neg (fun hc => he (keyName_inj hc)), hasKey, if_neg he, ih]

theorem fsWrite_mapF (m : MirrorCol) (k v : List Byte) :
    fsWrite (mapF m) (keyName k) v = mapF (mPut m k v) := by
  induction m with
  | nil => rfl
  | cons e rest ih =>
    show (if keyName e.1 = keyName k then (keyName k, v) :: mapF rest
          else (keyName e.1, e.2) :: fsWrite (mapF rest) (keyName k) v) = _
    by_cases he : e.1 = k
    · rw [if_pos (by rw [he]), mPut, if_pos he]; rfl
    · rw [if_neg (fun hc => he (keyName_inj hc)), mPut, if_neg he, ih]; rfl

theorem fsRemove_mapF (m : MirrorCol) (k : List Byte) :
    fsRemove (mapF m) (keyName k) = mapF (mDel m k) := by
  induction m with
  | nil => rfl
  | cons e rest ih =>
    show (if keyName e.1 = keyName k then fsRemove (mapF rest) (keyName k)
          else (keyName e.1, e.2) :: fsRemove (mapF rest) (keyName k)) = _
    by_cases he : e.1 = k
    · rw [if_pos (by rw [he]), mDel, if_pos he, ih]
    · rw [if_neg (fun hc => he (keyName_inj hc)), mDel, if_neg he, ih]; rfl

theorem deletePreScan_mapF (m : MirrorCol) (p : List Byte) :
    deletePreScan p (mapF m) = .ok (mapF (mDelPre m p)) := by
  induction m with
  | nil => rfl
  | cons e rest ih =>
    show (match nameKey (keyName e.1) with
          | Except.error u => Except.error u
          | Except.ok o =>
            match deletePreScan p (mapF rest) with
            | Except.error u => Except.error u
            | Except.ok rest' =>
              match o with
              | some k =>
                if bytesPre p k then Except.ok rest'
                else Except.ok ((keyName e.1, e.2) :: rest')
              | none => Except.ok ((keyName e.1, e.2) :: rest')) = _
    rw [nameKey_keyName, ih]
    show (if bytesPre p e.1 then Except.ok (mapF (mDelPre rest p))
          else .ok ((keyName e.1, e.2) :: mapF (mDelPre rest p))) = _
    by_cases hp : bytesPre p e.1 = true
    · rw [if_pos hp, mDelPre, if_pos hp]
    · rw [if_neg hp, mDelPre, if_neg hp]; rfl

theorem deletePreDisk_mapF (m : MirrorCol) (p : List Byte) :
    deletePreDisk (mapF m) p = .ok (mapF (mDelPre m p)) := by
  rw [deletePreDisk]
  by_cases hp : p.isEmpty = true
  · have : p = [] := by cases p with
      | nil => rfl
      | cons a r => exact absurd hp (by simp [List.isEmpty])
    rw [if_pos hp, this, mDelPre_nil_all]
    rfl
  · rw [if_neg hp, deletePreScan_mapF]

/-! ## The synchronization invariant -/

/-- One column is synchronized: the directory is exactly the mirror column's
image under the path codec, and the mirror column's keys are distinct. -/
def colInv (d : DiskCol) (m : MirrorCol) : Prop :=
  d = mapF m ∧ keysUnique m = true

/-- The whole store is synchronized over `n` columns. -/
def storeInv (n : Nat) (s : Store) : Prop :=
  s.disk.length = n ∧ s.mirror.length = n ∧
    ∀ c, colInv (getCol s.disk c) (getCol s.mirror c)

theorem applyOp_inv (n : Nat) (s : Store) (op : DBOp) (h : storeInv n s) :
    ∃ d', applyOpDisk s.disk op = .ok d' ∧
      storeInv n ⟨d', applyOpMirror s.mirror op⟩ := by
  obtain ⟨hdl, hml, hcols⟩ := h
  cases op with
  | insert col k v =>
    refine ⟨setCol s.disk col (fsWrite (getCol s.disk col) (keyName k) v), rfl, ?_⟩
    refine ⟨by rw [length_setCol, hdl], by rw [applyOpMirror, length_setCol, hml], ?_⟩
    intro c
    obtain ⟨hmap, huniq⟩ := hcols col
    by_cases hc : col = c
    · subst hc
      by_cases hlt : col < n
      · rw [getCol_setCol_self s.disk col _ (by rw [hdl]; exact hlt)]
        rw [applyOpMirror, getCol_setCol_self s.mirror col _ (by rw [hml]; exact hlt)]
        exact ⟨by rw [hmap, fsWrite_mapF], keysUnique_mPut _ k v huniq⟩
      · rw [setCol_oob s.disk col _ (by rw [hdl]; omega)]
        rw [applyOpMirror, setCol_oob s.mirror col _ (by rw [hml]; omega)]
        exact hcols col
    · rw [getCol_setCol_ne s.disk col c _ hc]
      rw [applyOpMirror, getCol_setCol_ne s.mirror col c _ hc]
      exact hcols c
  | delete col k =>
    refine ⟨_, rfl, ?_⟩
    refine ⟨by rw [length_setCol, hdl], by rw [applyOpMirror, length_setCol, hml], ?_⟩
    intro c
    obtain ⟨hmap, huniq⟩ := hcols col
    have hres : (if hasName (getCol s.disk col) (keyName k) then
        fsRemove (getCol s.disk col) (keyName k) else getCol s.disk col)
        = mapF (mDel (getCol s.mirror col) k) := by
      rw [hmap, hasName_mapF]
      by_cases hk : hasKey (getCol s.mirror col) k = true
      · rw [if_pos hk, fsRemove_mapF]
      · have hk' : hasKey (getCol s.mirror col) k = false := by
          cases hb : hasKey (getCol s.mirror col) k with
          | false => rfl
          | true => exact absurd hb hk
        rw [if_neg (by rw [hk']; exact Bool.noConfusion), mDel_absent _ _ hk']
    by_cases hc : col = c
    · subst hc
      by_cases hlt : col < n
      · rw [getCol_setCol_self s.disk col _ (by rw [hdl]; exact hlt)]
        rw [applyOpMirror, getCol_setCol_self s.mirror col _ (by rw [hml]; exact hlt)]
        exact ⟨hres, keysUnique_mDel _ k huniq⟩
      · rw [setCol_oob s.disk col _ (by rw [hdl]; omega)]
        rw [applyOpMirror, setCol_oob s.mirror col _ (by rw [hml]; omega)]
        exact hcols col
    · rw [getCol_setCol_ne s.disk col c _ hc]
      rw [applyOpMirror, getCol_setCol_ne s.mirror col c _ hc]
      exact hcols c
  | deletePre col p =>
    obtain ⟨hmap, huniq⟩ := hcols col
    have hscan : deletePreDisk (getCol s.disk col) p
        = .ok (mapF (mDelPre (getCol s.mirror col) p)) := by
      rw [hmap, deletePreDisk_mapF]
    refine ⟨setCol s.disk col (mapF (mDelPre (getCol s.mirror col) p)), ?_, ?_⟩
    · rw [applyOpDisk, hscan]
    refine ⟨by rw [length_setCol, hdl], by rw [applyOpMirror, length_setCol, hml], ?_⟩
    intro c
    by_cases hc : col = c
    · subst hc
      by_cases hlt : col < n
      · rw [getCol_setCol_self s.disk col _ (by rw [hdl]; exact hlt)]
        rw [applyOpMirror, getCol_setCol_self s.mirror col _ (by rw [hml]; exact hlt)]
        exact ⟨rfl, keysUnique_mDelPre _ p huniq⟩
      · rw [setCol_oob s.disk col _ (by rw [hdl]; omega)]
        rw [applyOpMirror, setCol_oob s.mirror col _ (by rw [hml]; omega)]
        exact hcols col
    · rw [getCol_setCol_ne s.disk col c _ hc]
      rw [applyOpMirror, getCol_setCol_ne s.mirror col c _ hc]
      exact hcols c

theorem diskApply_inv (n : Nat) :
    ∀ (ops : List DBOp) (disk : DiskState) (mir : MirrorState),
      storeInv n ⟨disk, mir⟩ →
      ∃ d', diskApply disk ops = .ok d' ∧ storeInv n ⟨d', mirrorWrite mir ops⟩ := by
  intro ops
  induction ops with
  | nil => intro disk mir h; exact ⟨disk, rfl, h⟩
  | cons op rest ih =>
    intro disk mir h
    obtain ⟨d₁, hd₁, hinv₁⟩ := applyOp_inv n ⟨disk, mir⟩ op h
    obtain ⟨d', hd', hinv'⟩ := ih d₁ (applyOpMirror mir op) hinv₁
    refine ⟨d', ?_, hinv'⟩
    rw [diskApply, hd₁]
    exact hd'

theorem writeTxn_inv (n : Nat) (s : Store) (ops : List DBOp) (h : storeInv n s) :
    ∃ d', writeTxn s ops = .ok ⟨d', mirrorWrite s.mirror ops⟩ ∧
      storeInv n ⟨d', mirrorWrite s.mirror ops⟩ := by
  obtain ⟨d', hd', hinv'⟩ := diskApply_inv n ops s.disk s.mirror (by
    cases s
    exact h)
  exact ⟨d', by rw [writeTxn, hd'], hinv'⟩

theorem applyTxns_inv (n : Nat) :
    ∀ (ts : List (List DBOp)) (s s' : Store),
      storeInv n s → applyTxns s ts = .ok s' → storeInv n s' := by
  intro ts
  induction ts with
  | nil =>
    intro s s' h hrun
    rw [applyTxns] at hrun
    cases hrun
    exact h
  | cons t rest ih =>
    intro s s' h hrun
    obtain ⟨d₁, ht, hinv₁⟩ := writeTxn_inv n s t h
    rw [applyTxns, ht] at hrun
    exact ih _ s' hinv₁ hrun

theorem storeInv_fresh (n : Nat) :
    storeInv n ⟨List.replicate n [], List.replicate n []⟩ := by
  refine ⟨List.length_replicate _ _, List.length_replicate _ _, ?_⟩
  intro c
  rw [getCol_replicate, getCol_replicate]
  exact ⟨rfl, rfl⟩

/-! ## Reloading a synchronized store -/

/-- The load transaction one synchronized column contributes. -/
def colOps (c : Nat) (m : MirrorCol) : List DBOp :=
  m.map (fun e => DBOp.insert c e.1 e.2)

/-- The load transaction a synchronized store contributes, column by
column. -/
def opsFor (c : Nat) : MirrorState → List DBOp
  | [] => []
  | m :: rest => colOps c m ++ opsFor (c + 1) rest

theorem normCols_id : ∀ (d : DiskState) (n : Nat), d.length = n → normCols n d = d := by
  intro d
  induction d with
  | nil =>
    intro n h
    rw [← h]
    rfl
  | cons x rest ih =>
    intro n h
    rw [← h]
    show x :: normCols rest.length rest = x :: rest
    rw [ih rest.length rfl]

theorem loadColOps_mapF (c : Nat) (m : MirrorCol) :
    loadColOps c (mapF m) = .ok (colOps c m) := by
  induction m with
  | nil => rfl
  | cons e rest ih =>
    show (match nameKey (keyName e.1) with
          | Except.error u => Except.error u
          | Except.ok o =>
            match loadColOps c (mapF rest) with
            | Except.error u => Except.error u
            | Except.ok ops =>
              match o with
              | some k => Except.ok (DBOp.insert c k e.2 :: ops)
              | none => Except.ok ops) = _
    rw [nameKey_keyName, ih]
    rfl

theorem openOpsFrom_mapF : ∀ (M : MirrorState) (c : Nat),
    openOpsFrom c (M.map mapF) = .ok (opsFor c M) := by
  intro M
  induction M with
  | nil => intro c; rfl
  | cons m rest ih =>
    intro c
    show (match loadColOps c (mapF m) with
          | Except.error u => Except.error u
          | Except.ok ops =>
            match openOpsFrom (c + 1) (rest.map mapF) with
            | Except.error u => Except.error u
            | Except.ok more => Except.ok (ops ++ more)) = _
    rw [loadColOps_mapF, ih]
    rfl

theorem mirrorWrite_append : ∀ (l₁ l₂ : List DBOp) (mir : MirrorState),
    mirrorWrite mir (l₁ ++ l₂) = mirrorWrite (mirrorWrite mir l₁) l₂ := by
  intro l₁
  induction l₁ with
  | nil => intro l₂ mir; rfl
  | cons op rest ih =>
    intro l₂ mir
    show mirrorWrite (applyOpMirror mir op) (rest ++ l₂) = _
    rw [ih]
    rfl

theorem length_mirrorWrite : ∀ (ops : List DBOp) (mir : MirrorState),
    (mirrorWrite mir ops).length = mir.length := by
  intro ops
  induction ops with
  | nil => intro mir; rfl
  | cons op rest ih =>
    intro mir
    show (mirrorWrite (applyOpMirror mir op) rest).length = _
    rw [ih]
    cases op with
    | insert col k v => exact length_setCol _ _ _
    | delete col k => exact length_setCol _ _ _
    | deletePre col p => exact length_setCol _ _ _

theorem getCol_append_self {α : Type} :
    ∀ (pre : List (List α)) (x : List α) (r : List (List α)),
      getCol (pre ++ x :: r) pre.length = x := by
  intro pre
  induction pre with
  | nil => intro x r; rfl
  | cons y rest ih => intro x r; exact ih x r

theorem setCol_append_self {α : Type} :
    ∀ (pre : List (List α)) (x y : List α) (r : List (List α)),
      setCol (pre ++ x :: r) pre.length y = pre ++ y :: r := by
  intro pre
  induction pre with
  | nil => intro x y r; rfl
  | cons z rest ih =>
    intro x y r
    show z :: setCol (rest ++ x :: r) rest.length y = z :: (rest ++ y :: r)
    rw [ih]

theorem hasKey_append : ∀ (a b : MirrorCol) (k : List Byte),
    hasKey (a ++ b) k = (hasKey a k || hasKey b k) := by
  intro a
  induction a with
  | nil => intro b k; rfl
  | cons e rest ih =>
    intro b k
    show (if e.1 = k then true else hasKey (rest ++ b) k) = _
    by_cases he : e.1 = k
    · rw [if_pos he, hasKey, if_pos he]
      rfl
    · rw [if_neg he, hasKey, if_neg he, ih]

theorem hasKey_of_mem : ∀ (m : MirrorCol) (e : List Byte × List Byte),
    e ∈ m → hasKey m e.1 = true := by
  intro m
  induction m with
  | nil => intro e he; exact absurd he (by simp)
  | cons a rest ih =>
    intro e he
    rw [hasKey]
    rcases List.mem_cons.mp he with h1 | h2
    · rw [if_pos (by rw [h1])]
    · by_cases ha : a.1 = e.1
      · rw [if_pos ha]
      · rw [if_neg ha]
        exact ih e h2

theorem mirrorWrite_colOps :
    ∀ (m : MirrorCol) (base : MirrorState) (c : Nat) (acc : MirrorCol),
      c < base.length → getCol base c = acc →
      (∀ e ∈ m, hasKey acc e.1 = false) → keysUnique m = true →
      mirrorWrite base (colOps c m) = setCol base c (acc ++ m) := by
  intro m
  induction m with
  | nil =>
    intro base c acc hlt hacc _ _
    show base = setCol base c (acc ++ [])
    rw [List.append_nil, ← hacc, setCol_getCol_self]
  | cons e rest ih =>
    intro base c acc hlt hacc hdisj huniq
    rw [keysUnique, Bool.and_eq_true, Bool.not_eq_true'] at huniq
    show mirrorWrite (applyOpMirror base (DBOp.insert c e.1 e.2)) (colOps c rest) = _
    have hput : applyOpMirror base (DBOp.insert c e.1 e.2)
        = setCol base c (acc ++ [(e.1, e.2)]) := by
      rw [applyOpMirror, hacc, mPut_absent _ _ _ (hdisj e (List.mem_cons_self e rest))]
    rw [hput]
    rw [ih (setCol base c (acc ++ [(e.1, e.2)])) c (acc ++ [(e.1, e.2)])
      (by rw [length_setCol]; exact hlt)
      (getCol_setCol_self base c _ hlt)
      ?_ huniq.2]
    · rw [setCol_setCol, List.append_assoc]
      rfl
    · intro e' he'
      rw [hasKey_append, hdisj e' (List.mem_cons_of_mem e he'), Bool.false_or]
      show (if e.1 = e'.1 then true else false) = false
      rw [if_neg ?_]
      intro hc
      have hmem : hasKey rest e.1 = true := by
        rw [hc]
        exact hasKey_of_mem rest e' he'
      rw [hmem] at huniq
      exact Bool.noConfusion huniq.1

theorem mirrorWrite_opsFor :
    ∀ (M : MirrorState) (pre : MirrorState),
      (∀ m ∈ M, keysUnique m = true) →
      mirrorWrite (pre ++ List.replicate M.length []) (opsFor pre.length M) = pre ++ M := by
  intro M
  induction M with
  | nil =>
    intro pre _
    show pre ++ [] = pre ++ []
    rfl
  | cons m rest ih =>
    intro pre huniq
    show mirrorWrite (pre ++ [] :: List.replicate rest.length [])
        (colOps pre.length m ++ opsFor (pre.length + 1) rest) = _
    rw [mirrorWrite_append]
    rw [mirrorWrite_colOps m (pre ++ [] :: List.replicate rest.length []) pre.length []
      (by rw [List.length_append]; simp)
      (getCol_append_self pre [] _)
      (fun e _ => rfl)
      (huniq m (List.mem_cons_self m rest))]
    rw [List.nil_append, setCol_append_self]
    have hlen : (pre ++ [m]).length = pre.length + 1 := by
      simp
    have hstep : pre ++ m :: List.replicate rest.length []
        = (pre ++ [m]) ++ List.replicate rest.length [] := by
      rw [List.append_assoc]
      rfl
    rw [hstep, ← hlen]
    rw [ih (pre ++ [m]) (fun x hx => huniq x (List.mem_cons_of_mem m hx))]
    rw [List.append_assoc]
    rfl

theorem disk_eq_map_mapF :
    ∀ (disk : DiskState) (M : MirrorState), disk.length = M.length →
      (∀ c, getCol disk c = mapF (getCol M c)) → disk = M.map mapF := by
  intro disk
  induction disk with
  | nil =>
    intro M hlen _
    cases M with
    | nil => rfl
    | cons m rest => exact absurd hlen (by simp)
  | cons d rest ih =>
    intro M hlen hpt
    cases M with
    | nil => exact absurd hlen (by simp)
    | cons m mrest =>
      have h0 : d = mapF m := hpt 0
      have htail : rest = mrest.map mapF :=
        ih mrest (by simpa using hlen) (fun c => hpt (c + 1))
      rw [h0, htail]
      rfl

theorem mem_getCol :
    ∀ (M : MirrorState) (m : MirrorCol), m ∈ M → ∃ c, getCol M c = m := by
  intro M
  induction M with
  | nil => intro m hm; exact absurd hm (by simp)
  | cons x rest ih =>
    intro m hm
    rcases List.mem_cons.mp hm with h1 | h2
    · exact ⟨0, h1.symm⟩
    · obtain ⟨c, hc⟩ := ih m h2
      exact ⟨c + 1, hc⟩

/-- Reopening a synchronized store reproduces its disk and mirror exactly. -/
theorem openStore_inv (n : Nat) (s : Store) (h : storeInv n s) :
    openStore n s.disk = .ok ⟨s.disk, s.mirror⟩ := by
  obtain ⟨hdl, hml, hcols⟩ := h
  have hnorm : normCols n s.disk = s.disk := normCols_id s.disk n hdl
  have hdiskmap : s.disk = s.mirror.map mapF :=
    disk_eq_map_mapF s.disk s.mirror (by rw [hdl, hml]) (fun c => (hcols c).1)
  have hops : openOpsFrom 0 s.disk = .ok (opsFor 0 s.mirror) := by
    rw [hdiskmap]
    exact openOpsFrom_mapF s.mirror 0
  have huniq : ∀ m ∈ s.mirror, keysUnique m = true := by
    intro m hm
    obtain ⟨c, hc⟩ := mem_getCol s.mirror m hm
    rw [← hc]
    exact (hcols c).2
  have hwrite : mirrorWrite (List.replicate n []) (opsFor 0 s.mirror) = s.mirror := by
    have := mirrorWrite_opsFor s.mirror [] huniq
    rw [List.nil_append, List.nil_append] at this
    rw [hml] at this
    exact this
  rw [openStore]
  show (match openOpsFrom 0 (normCols n s.disk) with
        | Except.error u => Except.error u
        | Except.ok ops =>
          Except.ok (Store.mk (normCols n s.disk) (mirrorWrite (List.replicate n []) ops))) = _
  rw [hnorm, hops]
  show Except.ok (Store.mk s.disk (mirrorWrite (List.replicate n []) (opsFor 0 s.mirror))) = _
  rw [hwrite]

/-! ## Characterizing the fallible write loop -/

theorem diskApplyF_spec :
    ∀ (ops : List DBOp) (fails : Nat → Bool) (disk : DiskState),
      diskApplyF fails disk ops =
        match firstFailIdx fails ops.length with
        | some i => (diskApply disk (ops.take i)).map (fun d => (d, some i))
        | none => (diskApply disk ops).map (fun d => (d, none)) := by
  intro ops
  induction ops with
  | nil =>
    intro fails disk
    rfl
  | cons op rest ih =>
    intro fails disk
    show (if fails 0 then Except.ok (disk, some 0)
          else
            match applyOpDisk disk op with
            | Except.error u => Except.error u
            | Except.ok d =>
              match diskApplyF (fun j => fails (j + 1)) d rest with
              | Except.error u => Except.error u
              | Except.ok (d', none) => Except.ok (d', none)
              | Except.ok (d', some i) => Except.ok (d', some (i + 1))) = _
    by_cases h0 : fails 0 = true
    · rw [if_pos h0]
      show _ = (match firstFailIdx fails (rest.length + 1) with
        | some i => (diskApply disk ((op :: rest).take i)).map (fun d => (d, some i))
        | none => (diskApply disk (op :: rest)).map (fun d => (d, none)))
      rw [firstFailIdx, if_pos h0]
      rfl
    · rw [if_neg h0]
      have hidx : firstFailIdx fails (rest.length + 1)
          = (firstFailIdx (fun j => fails (j + 1)) rest.length).map (· + 1) := by
        rw [firstFailIdx, if_neg h0]
      cases happ : applyOpDisk disk op with
      | error u =>
        show Except.error u = (match firstFailIdx fails ((op :: rest).length) with
          | some i => (diskApply disk ((op :: rest).take i)).map (fun d => (d, some i))
          | none => (diskApply disk (op :: rest)).map (fun d => (d, none)))
        show Except.error u = (match firstFailIdx fails (rest.length + 1) with
          | some i => (diskApply disk ((op :: rest).take i)).map (fun d => (d, some i))
          | none => (diskApply disk (op :: rest)).map (fun d => (d, none)))
        rw [hidx]
        cases hf : firstFailIdx (fun j => fails (j + 1)) rest.length with
        | none =>
          show Except.error u = (diskApply disk (op :: rest)).map (fun d => (d, none))
          rw [diskApply, happ]
          rfl
        | some j =>
          show Except.error u
              = (diskApply disk ((op :: rest).take (j + 1))).map (fun d => (d, some (j + 1)))
          rw [List.take_succ_cons, diskApply, happ]
          rfl
      | ok d =>
        show (match diskApplyF (fun j => fails (j + 1)) d rest with
          | Except.error u => Except.error u
          | Except.ok (d', none) => Except.ok (d', none)
          | Except.ok (d', some i) => Except.ok (d', some (i + 1))) = _
        rw [ih (fun j => fails (j + 1)) d]
        show (match
            (match firstFailIdx (fun j => fails (j + 1)) rest.length with
              | some i => (diskApply d (rest.take i)).map (fun d' => (d', some i))
              | none => (diskApply d rest).map (fun d' => (d', none))) with
          | Except.error u => Except.error u
          | Except.ok (d', none) => Except.ok (d', none)
          | Except.ok (d', some i) => Except.ok (d', some (i + 1))) = _
        rw [List.length_cons, hidx]
        cases hf : firstFailIdx (fun j => fails (j + 1)) rest.length with
        | none =>
          show (match (diskApply d rest).map (fun d' => (d', none)) with
            | Except.error u => Except.error u
            | Except.ok (d', none) => Except.ok (d', none)
            | Except.ok (d', some i) => Except.ok (d', some (i + 1)))
            = (diskApply disk (op :: rest)).map (fun d' => (d', (none : Option Nat)))
          rw [diskApply, happ]
          show (match (diskApply d rest).map (fun d' => (d', (none : Option Nat))) with
            | Except.error u => Except.error u
            | Except.ok (d', none) => Except.ok (d', none)
            | Except.ok (d', some i) => Except.ok (d', some (i + 1)))
            = (diskApply d rest).map (fun d' => (d', (none : Option Nat)))
          cases diskApply d rest with
          | error u => rfl
          | ok d' => rfl
        | some j =>
          show (match (diskApply d (rest.take j)).map (fun d' => (d', some j)) with
            | Except.error u => Except.error u
            | Except.ok (d', none) => Except.ok (d', none)
            | Except.ok (d', some i) => Except.ok (d', some (i + 1)))
            = (diskApply disk ((op :: rest).take (j + 1))).map (fun d' => (d', some (j + 1)))
          rw [List.take_succ_cons, diskApply, happ]
          show (match (diskApply d (rest.take j)).map (fun d' => (d', some j)) with
            | Except.error u => Except.error u
            | Except.ok (d', none) => Except.ok (d', none)
            | Except.ok (d', some i) => Except.ok (d', some (i + 1)))
            = (diskApply d (rest.take j)).map (fun d' => (d', some (j + 1)))
          cases diskApply d (rest.take j) with
          | error u => rfl
          | ok d' => rfl

theorem firstFailIdx_false : ∀ (n : Nat), firstFailIdx (fun _ => false) n = none := by
  intro n
  induction n with
  | zero => rfl
  | succ m ih =>
    rw [firstFailIdx, if_neg (by exact Bool.noConfusion)]
    rw [show (fun j => (fun _ => false) (j + 1)) = (fun _ : Nat => false) from rfl, ih]
    rfl

/-- With no injected failures, `InFile.write` is exactly the successful-run
model `writeTxn`. -/
theorem write_noFail (s : Store) (ops : List DBOp) :
    InFile.write (fun _ => false) s ops = (writeTxn s ops).map WriteOut.ok := by
  rw [InFile.write, diskApplyF_spec, firstFailIdx_false]
  show (match (diskApply s.disk ops).map (fun d => (d, (none : Option Nat))) with
    | Except.error u => Except.error u
    | Except.ok (d, some i) => Except.ok (WriteOut.err ⟨d, s.mirror⟩ i)
    | Except.ok (d, none) => Except.ok (WriteOut.ok ⟨d, mirrorWrite s.mirror ops⟩)) = _
  rw [writeTxn]
  cases diskApply s.disk ops with
  | error u => rfl
  | ok d => rfl

/-! ## Which operations touch a `(column, key)` slot -/

/-- An operation affects `(c, k)`: an insert or delete of exactly that key
in that column, or a delete whose prefix matches `k` in that column. -/
def touches (c : Nat) (k : List Byte) : DBOp → Bool
  | .insert c' k' _ => decide (c' = c) && decide (k' = k)
  | .delete c' k' => decide (c' = c) && decide (k' = k)
  | .deletePre c' p => decide (c' = c) && bytesPre p k

theorem mLookup_untouched (mir : MirrorState) (c : Nat) (k : List Byte) (op : DBOp)
    (h : touches c k op = false) :
    mLookup (getCol (applyOpMirror mir op) c) k = mLookup (getCol mir c) k := by
  cases op with
  | insert c' k' v =>
    rw [touches, Bool.and_eq_false_iff] at h
    by_cases hc : c' = c
    · have hk : ¬ k' = k := by
        rcases h with h1 | h2
        · exact absurd hc (by simpa using h1)
        · simpa using h2
      subst hc
      by_cases hlt : c' < mir.length
      · rw [applyOpMirror, getCol_setCol_self mir c' _ hlt,
          mLookup_mPut_ne _ _ _ _ (fun hkk => hk hkk.symm)]
      · rw [applyOpMirror, setCol_oob mir c' _ (by omega)]
    · rw [applyOpMirror, getCol_setCol_ne mir c' c _ hc]
  | delete c' k' =>
    rw [touches, Bool.and_eq_false_iff] at h
    by_cases hc : c' = c
    · have hk : ¬ k' = k := by
        rcases h with h1 | h2
        · exact absurd hc (by simpa using h1)
        · simpa using h2
      subst hc
      by_cases hlt : c' < mir.length
      · rw [applyOpMirror, getCol_setCol_self mir c' _ hlt,
          mLookup_mDel_ne _ _ _ (fun hkk => hk hkk.symm)]
      · rw [applyOpMirror, setCol_oob mir c' _ (by omega)]
    · rw [applyOpMirror, getCol_setCol_ne mir c' c _ hc]
  | deletePre c' p =>
    rw [touches, Bool.and_eq_false_iff] at h
    by_cases hc : c' = c
    · have hp : bytesPre p k = false := by
        rcases h with h1 | h2
        · exact absurd hc (by simpa using h1)
        · exact h2
      subst hc
      by_cases hlt : c' < mir.length
      · rw [applyOpMirror, getCol_setCol_self mir c' _ hlt, mLookup_mDelPre_notPre _ _ _ hp]
      · rw [applyOpMirror, setCol_oob mir c' _ (by omega)]
    · rw [applyOpMirror, getCol_setCol_ne mir c' c _ hc]

theorem mLookup_untouched_list :
    ∀ (l : List DBOp) (mir : MirrorState) (c : Nat) (k : List Byte),
      (∀ op ∈ l, touches c k op = false) →
      mLookup (getCol (mirrorWrite mir l) c) k = mLookup (getCol mir c) k := by
  intro l
  induction l with
  | nil => intro mir c k _; rfl
  | cons op rest ih =>
    intro mir c k h
    show mLookup (getCol (mirrorWrite (applyOpMirror mir op) rest) c) k = _
    rw [ih (applyOpMirror mir op) c k (fun o ho => h o (List.mem_cons_of_mem op ho)),
      mLookup_untouched mir c k op (h op (List.mem_cons_self op rest))]

theorem fsRemove_self (d : DiskCol) (name : String) :
    hasName (fsRemove d name) name = false := by
  induction d with
  | nil => rfl
  | cons e rest ih =>
    by_cases he : e.1 = name
    · rw [fsRemove, if_pos he, ih]
    · rw [fsRemove, if_neg he, hasName, if_neg he, ih]

/-! ## Declarative form of the prefix-delete scan -/

/-- An entry survives a `DeletePrefix` scan: its name decodes to no key, or
to a key that does not start with the prefix. -/
def keep (p : List Byte) (e : String × List Byte) : Bool :=
  match nameKey e.1 with
  | .ok (some k) => !(bytesPre p k)
  | _ => true

/-- The surviving entries of a directory, in order. -/
def keepAll (p : List Byte) : DiskCol → DiskCol
  | [] => []
  | e :: rest => if keep p e then e :: keepAll p rest else keepAll p rest

theorem deletePreScan_keepAll :
    ∀ (d : DiskCol) (p : List Byte), (∀ e ∈ d, 2 ≤ e.1.length) →
      deletePreScan p d = .ok (keepAll p d) := by
  intro d p
  induction d with
  | nil => intro _; rfl
  | cons e rest ih =>
    intro h
    have hlen : ¬ e.1.length < 2 := by
      have := h e (List.mem_cons_self e rest)
      omega
    have hname : nameKey e.1 = .ok (hexDecode (e.1.data.drop 2)) := by
      rw [nameKey, if_neg hlen]
    show (match nameKey e.1 with
          | Except.error u => Except.error u
          | Except.ok o =>
            match deletePreScan p rest with
            | Except.error u => Except.error u
            | Except.ok rest' =>
              match o with
              | some k => if bytesPre p k then Except.ok rest' else Except.ok (e :: rest')
              | none => Except.ok (e :: rest')) = Except.ok (keepAll p (e :: rest))
    rw [hname, ih (fun x hx => h x (List.mem_cons_of_mem e hx)), keepAll]
    cases hd : hexDecode (e.1.data.drop 2) with
    | none =>
      have hkeep : keep p e = true := by rw [keep, hname, hd]
      rw [hkeep, if_pos rfl]
    | some k =>
      have hkeep : keep p e = !(bytesPre p k) := by rw [keep, hname, hd]
      show (if bytesPre p k = true then Except.ok (keepAll p rest)
            else Except.ok (e :: keepAll p rest))
          = Except.ok (if keep p e = true then e :: keepAll p rest else keepAll p rest)
      rw [hkeep]
      cases hb : bytesPre p k with
      | true => rfl
      | false => rfl

/-! ## Claim theorems -/

/-- C4 — Path codec round-trip: for every column `col` and key `k`,
decoding the path produced by encoding `(col, k)` yields exactly `k`; the
produced path is `<root>/<col>/0x<hex(k)>`, and the hex digits are all
lowercase. -/
theorem key_path_round_trip : ∀ (root : String) (col : Nat) (k : List Byte),
    file2key (key2file root col k) = .ok (some k)
    ∧ key2file root col k = [root, toString col, String.mk ('0' :: 'x' :: hexEncode k)]
    ∧ (hexEncode k).all (fun ch => !ch.isUpper) = true := by
  intro root col k
  refine ⟨?_, rfl, ?_⟩
  · show nameKey (keyName k) = _
    exact nameKey_keyName k
  · induction k with
    | nil => rfl
    | cons b t ih =>
      have h1 : (hexDigitChar (b.val / 16)).isUpper = false :=
        hexDigitChar_not_upper ⟨b.val / 16, by
          have := b.isLt
          omega⟩
      have h2 : (hexDigitChar (b.val % 16)).isUpper = false :=
        hexDigitChar_not_upper ⟨b.val % 16, Nat.mod_lt _ (by omega)⟩
      show ([hexDigitChar (b.val / 16), hexDigitChar (b.val % 16)] ++ hexEncode t).all
          (fun ch => !ch.isUpper) = true
      rw [List.all_append, Bool.and_eq_true]
      refine ⟨?_, ih⟩
      show (!(hexDigitChar (b.val / 16)).isUpper
        && (!(hexDigitChar (b.val % 16)).isUpper && true)) = true
      rw [h1, h2]
      rfl

/-- C5, counterexample — the claim says decoding rejects every file name
that does not begin with `"0x"`; but the code never checks the first two
characters: `"zz12"` does not begin with `"0x"`, yet `file2key` decodes it
to the key `[0x12]` instead of returning an absent result. -/
theorem file2key_no_0x_check_cex :
    file2key ["r", "0", "zz12"] = .ok (some [18])
    ∧ "zz12".data.take 2 ≠ ['0', 'x']
    ∧ file2key ["r", "0", "zz12"] ≠ .ok none := by
  refine ⟨rfl, by decide, by decide⟩

/-- C5, amended — `file2key` never looks at the first two characters of the
file name: for a name of length at least two it returns exactly the result
of hex-decoding the remainder after those two characters (absent iff that
remainder is not valid hex), and it panics (rather than returning absent)
on a name shorter than two bytes. -/
theorem file2key_decode_spec : ∀ (root col name : String),
    (2 ≤ name.length → file2key [root, col, name] = .ok (hexDecode (name.data.drop 2)))
    ∧ (name.length < 2 → file2key [root, col, name] = .error ()) := by
  intro root col name
  constructor
  · intro h
    show nameKey name = _
    rw [nameKey, if_neg (by omega)]
  · intro h
    show nameKey name = _
    rw [nameKey, if_pos h]

/-- C5, witness — the amended statement evaluated at `"zz12"` (no `0x`
check) and `"a"` (short-name panic). -/
theorem file2key_decode_spec_wit :
    file2key ["r", "0", "zz12"] = .ok (some [18])
    ∧ file2key ["r", "0", "a"] = .error () := by
  constructor
  · have h := (file2key_decode_spec "r" "0" "zz12").1 (by decide)
    rw [h]
    rfl
  · exact (file2key_decode_spec "r" "0" "a").2 (by decide)

/-- C10 — path decoding is not total: on the one-byte file name `"a"` the
decoder panics (modelled `Except.error`) instead of returning an absent
result, so the load scan of `open` and the prefix-delete scan of `write`
are not total over arbitrary column-directory contents. -/
theorem file2key_short_name_panics :
    nameKey "a" = .error ()
    ∧ file2key ["r", "0", "a"] = .error ()
    ∧ file2key ["r", "0", "a"] ≠ .ok none
    ∧ openStore 1 [[("a", [0])]] = .error ()
    ∧ writeTxn ⟨[[("a", [0])]], [[]]⟩ [DBOp.deletePre 0 [1]] = .error () := by
  refine ⟨rfl, rfl, by decide, rfl, rfl⟩

/-- C3, counterexample — the claim's description of `DeletePrefix` fails on
a column directory holding a regular file with a one-byte name: instead of
leaving the undecodable file untouched, the scan panics. -/
theorem deletePre_short_name_cex :
    deletePreDisk [("a", [0])] [1] = .error ()
    ∧ deletePreDisk [("a", [0])] [1] ≠ .ok [("a", [0])] := by
  exact ⟨rfl, by decide⟩

/-- C3, amended — on a column directory whose file names are all at least
two bytes long, `DeletePrefix` with an empty prefix removes every regular
file, and with a non-empty prefix removes exactly the files whose names
decode to a key starting byte-for-byte with the prefix, leaving files whose
names fail to decode untouched. -/
theorem deletePre_disk_spec : ∀ (d : DiskCol) (p : List Byte),
    (∀ e ∈ d, 2 ≤ e.1.length) →
    deletePreDisk d p = .ok (if p.isEmpty then [] else keepAll p d) := by
  intro d p h
  rw [deletePreDisk]
  by_cases hp : p.isEmpty = true
  · rw [if_pos hp, if_pos hp]
  · rw [if_neg hp, if_neg hp]
    exact deletePreScan_keepAll d p h

/-- C3, witness — the amended statement evaluated on the directory
`{"0x6162" (key "ab"), "0x6163" (key "ac"), "0x6261" (key "ba"), "junk"}`
with prefix `"a"` (removes the two `a…` keys, keeps the undecodable entry)
and with the empty prefix (removes everything). -/
theorem deletePre_disk_spec_wit :
    deletePreDisk [("0x6162", [1]), ("0x6163", [2]), ("0x6261", [3]), ("junk", [4])] [97]
      = .ok [("0x6261", [3]), ("junk", [4])]
    ∧ deletePreDisk [("0x6162", [1]), ("0x6163", [2]), ("0x6261", [3]), ("junk", [4])] []
      = .ok [] := by
  constructor
  · have h := deletePre_disk_spec
      [("0x6162", [1]), ("0x6163", [2]), ("0x6261", [3]), ("junk", [4])] [97] (by decide)
    rw [h]
    rfl
  · have h := deletePre_disk_spec
      [("0x6162", [1]), ("0x6163", [2]), ("0x6261", [3]), ("junk", [4])] [] (by decide)
    rw [h]
    rfl

/-- C7 — `Delete` is a silent no-op on a missing key: when no file exists
at the key's path the operation succeeds and changes nothing; when the file
exists it is removed (and is gone afterwards). -/
theorem delete_missing_noop : ∀ (disk : DiskState) (c : Nat) (k : List Byte),
    (hasName (getCol disk c) (keyName k) = false →
      applyOpDisk disk (.delete c k) = .ok disk)
    ∧ (hasName (getCol disk c) (keyName k) = true →
      applyOpDisk disk (.delete c k)
        = .ok (setCol disk c (fsRemove (getCol disk c) (keyName k)))
      ∧ hasName (fsRemove (getCol disk c) (keyName k)) (keyName k) = false) := by
  intro disk c k
  constructor
  · intro h
    show Except.ok (setCol disk c (if hasName (getCol disk c) (keyName k) = true
      then fsRemove (getCol disk c) (keyName k) else getCol disk c)) = Except.ok disk
    rw [h, if_neg (by exact Bool.noConfusion), setCol_getCol_self]
  · intro h
    refine ⟨?_, fsRemove_self _ _⟩
    show Except.ok (setCol disk c (if hasName (getCol disk c) (keyName k) = true
      then fsRemove (getCol disk c) (keyName k) else getCol disk c)) = _
    rw [h, if_pos rfl]

/-- C7, witness — deleting the key `[5]` from an empty column succeeds and
changes nothing; deleting it when its file `0x05` exists removes exactly
that file. -/
theorem delete_missing_noop_wit :
    applyOpDisk [[]] (.delete 0 [5]) = .ok [[]]
    ∧ applyOpDisk [[("0x05", [7])]] (.delete 0 [5]) = .ok [[]] := by
  constructor
  · exact (delete_missing_noop [[]] 0 [5]).1 rfl
  · have h := ((delete_missing_noop [[("0x05", [7])]] 0 [5]).2 rfl).1
    rw [h]
    rfl

/-- C8 — read facade delegation: point-get, get-by-prefix, full iteration
and prefix-bounded iteration return exactly what the in-memory mirror
returns for the same call, and depend only on the mirror — two stores with
the same mirror and arbitrary different disks answer identically (the pure
reads also return no modified state). -/
theorem read_facade_delegates :
    ∀ (d₁ d₂ : DiskState) (m : MirrorState) (c : Nat) (k p : List Byte),
      (InFile.get ⟨d₁, m⟩ c k = mGet m c k
        ∧ InFile.get ⟨d₁, m⟩ c k = InFile.get ⟨d₂, m⟩ c k)
      ∧ (InFile.getByPre ⟨d₁, m⟩ c p = mGetByPre m c p
        ∧ InFile.getByPre ⟨d₁, m⟩ c p = InFile.getByPre ⟨d₂, m⟩ c p)
      ∧ (InFile.iter ⟨d₁, m⟩ c = mIter m c
        ∧ InFile.iter ⟨d₁, m⟩ c = InFile.iter ⟨d₂, m⟩ c)
      ∧ (InFile.iterWithPre ⟨d₁, m⟩ c p = mIterWithPre m c p
        ∧ InFile.iterWithPre ⟨d₁, m⟩ c p = InFile.iterWithPre ⟨d₂, m⟩ c p) := by
  intro d₁ d₂ m c k p
  exact ⟨⟨rfl, rfl⟩, ⟨rfl, rfl⟩, ⟨rfl, rfl⟩, ⟨rfl, rfl⟩⟩

/-- C9 — non-existing column: on a store opened with `n` columns, `get` on
any column index `c ≥ n` fails with an error (it does not silently return
an absent value). -/
theorem get_bad_col_errors :
    ∀ (n : Nat) (disk : DiskState) (s : Store) (c : Nat) (k : List Byte),
      openStore n disk = .ok s → n ≤ c → InFile.get s c k = .error () := by
  intro n disk s c k hopen hc
  have hlen : s.mirror.length = n := by
    rw [openStore] at hopen
    cases hops : openOpsFrom 0 (normCols n disk) with
    | error u =>
      rw [hops] at hopen
      exact Except.noConfusion hopen
    | ok ops =>
      rw [hops] at hopen
      have hs : Except.ok (Store.mk (normCols n disk)
          (mirrorWrite (List.replicate n []) ops)) = Except.ok s := hopen
      injection hs with hs'
      rw [← hs']
      show (mirrorWrite (List.replicate n []) ops).length = n
      rw [length_mirrorWrite, List.length_replicate]
  rw [InFile.get, mGet, if_neg (by omega)]

/-- C9, witness — a store opened with one column errors on `get` at column
1. -/
theorem get_bad_col_errors_wit :
    InFile.get ⟨[[]], [[]]⟩ 1 [0] = .error () :=
  get_bad_col_errors 1 (List.replicate 1 []) ⟨[[]], [[]]⟩ 1 [0] rfl (by omega)

/-- C2 — transaction partial-failure behaviour: `write` applies the
operations' disk steps strictly in sequence; at the first failing step
(injected by the oracle) it returns that error at once, with exactly the
preceding operations applied to disk (nothing rolled back) and the mirror
untouched; only when every disk step succeeds is the mirror written, once,
with the whole transaction. -/
theorem write_sequential_fail_fast :
    ∀ (fails : Nat → Bool) (s : Store) (ops : List DBOp),
      InFile.write fails s ops =
        match firstFailIdx fails ops.length with
        | some i =>
          (diskApply s.disk (ops.take i)).map (fun d => WriteOut.err ⟨d, s.mirror⟩ i)
        | none =>
          (diskApply s.disk ops).map (fun d => WriteOut.ok ⟨d, mirrorWrite s.mirror ops⟩) := by
  intro fails s ops
  rw [InFile.write, diskApplyF_spec]
  cases firstFailIdx fails ops.length with
  | some i =>
    show (match (diskApply s.disk (ops.take i)).map (fun d => (d, some i)) with
      | Except.error u => Except.error u
      | Except.ok (d, some i) => Except.ok (WriteOut.err ⟨d, s.mirror⟩ i)
      | Except.ok (d, none) => Except.ok (WriteOut.ok ⟨d, mirrorWrite s.mirror ops⟩))
      = (diskApply s.disk (ops.take i)).map (fun d => WriteOut.err ⟨d, s.mirror⟩ i)
    cases diskApply s.disk (ops.take i) with
    | error u => rfl
    | ok d => rfl
  | none =>
    show (match (diskApply s.disk ops).map (fun d => (d, (none : Option Nat))) with
      | Except.error u => Except.error u
      | Except.ok (d, some i) => Except.ok (WriteOut.err ⟨d, s.mirror⟩ i)
      | Except.ok (d, none) => Except.ok (WriteOut.ok ⟨d, mirrorWrite s.mirror ops⟩))
      = (diskApply s.disk ops).map (fun d => WriteOut.ok ⟨d, mirrorWrite s.mirror ops⟩)
    cases diskApply s.disk ops with
    | error u => rfl
    | ok d => rfl

/-- C6 — write-read consistency: after a successful transaction containing
`insert(c, k, v)` with no later operation on `(c, k)`, `get(c, k)` returns
`v`; after one containing `delete(c, k)` with no later operation on
`(c, k)`, `get(c, k)` returns absent. -/
theorem write_read_consistency :
    ∀ (s : Store) (ops : List DBOp) (s' : Store) (c : Nat) (k : List Byte),
      c < s.mirror.length → writeTxn s ops = .ok s' →
      ((∀ (l₁ l₂ : List DBOp) (v : List Byte),
          ops = l₁ ++ DBOp.insert c k v :: l₂ → (∀ op ∈ l₂, touches c k op = false) →
          InFile.get s' c k = .ok (some v))
       ∧ (∀ (l₁ l₂ : List DBOp),
          ops = l₁ ++ DBOp.delete c k :: l₂ → (∀ op ∈ l₂, touches c k op = false) →
          InFile.get s' c k = .ok none)) := by
  intro s ops s' c k hc hw
  have hmir : s'.mirror = mirrorWrite s.mirror ops := by
    rw [writeTxn] at hw
    cases hda : diskApply s.disk ops with
    | error u =>
      rw [hda] at hw
      exact Except.noConfusion hw
    | ok d =>
      rw [hda] at hw
      have hw' : Except.ok (Store.mk d (mirrorWrite s.mirror ops)) = Except.ok s' := hw
      injection hw' with hw''
      rw [← hw'']
  have hlen : s'.mirror.length = s.mirror.length := by
    rw [hmir, length_mirrorWrite]
  constructor
  · intro l₁ l₂ v hops huntouched
    rw [InFile.get, mGet, if_pos (show c < s'.mirror.length by omega), hmir, hops,
      mirrorWrite_append]
    show Except.ok (mLookup (getCol (mirrorWrite
      (applyOpMirror (mirrorWrite s.mirror l₁) (DBOp.insert c k v)) l₂) c) k) = _
    rw [mLookup_untouched_list l₂ _ c k huntouched]
    have hlt : c < (mirrorWrite s.mirror l₁).length := by
      rw [length_mirrorWrite]
      omega
    rw [applyOpMirror, getCol_setCol_self _ c _ hlt, mLookup_mPut_self]
  · intro l₁ l₂ hops huntouched
    rw [InFile.get, mGet, if_pos (show c < s'.mirror.length by omega), hmir, hops,
      mirrorWrite_append]
    show Except.ok (mLookup (getCol (mirrorWrite
      (applyOpMirror (mirrorWrite s.mirror l₁) (DBOp.delete c k)) l₂) c) k) = _
    rw [mLookup_untouched_list l₂ _ c k huntouched]
    have hlt : c < (mirrorWrite s.mirror l₁).length := by
      rw [length_mirrorWrite]
      omega
    rw [applyOpMirror, getCol_setCol_self _ c _ hlt, mLookup_mDel_self]

/-- C6, witness — after the transaction `[insert 0 [1] [2], delete 0 [3]]`
on a fresh one-column store, `get 0 [1]` returns `[2]`; after
`[insert 0 [3] [4], delete 0 [3]]`, `get 0 [3]` is absent. -/
theorem write_read_consistency_wit :
    InFile.get ⟨[[("0x01", [2])]], [[([1], [2])]]⟩ 0 [1] = .ok (some [2])
    ∧ InFile.get ⟨[[]], [[]]⟩ 0 [3] = .ok none := by
  constructor
  · exact (write_read_consistency ⟨[[]], [[]]⟩
      [DBOp.insert 0 [1] [2], DBOp.delete 0 [3]]
      ⟨[[("0x01", [2])]], [[([1], [2])]]⟩ 0 [1] (by decide) rfl).1
      [] [DBOp.delete 0 [3]] [2] rfl (by decide)
  · exact (write_read_consistency ⟨[[("0x03", [9])]], [[([3], [9])]]⟩
      [DBOp.insert 0 [3] [4], DBOp.delete 0 [3]]
      ⟨[[]], [[]]⟩ 0 [3] (by decide) rfl).2
      [DBOp.insert 0 [3] [4]] [] rfl (by decide)

theorem opsFor_replicate_nil : ∀ (n c : Nat), opsFor c (List.replicate n []) = [] := by
  intro n
  induction n with
  | zero => intro c; rfl
  | succ m ih =>
    intro c
    show colOps c [] ++ opsFor (c + 1) (List.replicate m []) = []
    rw [ih]
    rfl

/-- C1, counterexample — load idempotence fails for a store opened on a
root that already holds a file whose name is not the canonical encoding of
its key: the directory `{"0x12" ↦ [1], "zz12" ↦ [2]}` loads both files onto
the same key `[0x12]`; after a successful `insert([0x12], [3])` the store
answers `[3]`, but reopening from the resulting disk answers `[2]`. -/
theorem load_idem_dirty_root_cex :
    openStore 1 [[("0x12", [1]), ("zz12", [2])]]
      = .ok ⟨[[("0x12", [1]), ("zz12", [2])]], [[([18], [2])]]⟩
    ∧ writeTxn ⟨[[("0x12", [1]), ("zz12", [2])]], [[([18], [2])]]⟩ [DBOp.insert 0 [18] [3]]
      = .ok ⟨[[("0x12", [3]), ("zz12", [2])]], [[([18], [3])]]⟩
    ∧ openStore 1 [[("0x12", [3]), ("zz12", [2])]]
      = .ok ⟨[[("0x12", [3]), ("zz12", [2])]], [[([18], [2])]]⟩
    ∧ InFile.get ⟨[[("0x12", [3]), ("zz12", [2])]], [[([18], [3])]]⟩ 0 [18] = .ok (some [3])
    ∧ InFile.get ⟨[[("0x12", [3]), ("zz12", [2])]], [[([18], [2])]]⟩ 0 [18] = .ok (some [2])
    ∧ InFile.get ⟨[[("0x12", [3]), ("zz12", [2])]], [[([18], [2])]]⟩ 0 [18]
        ≠ InFile.get ⟨[[("0x12", [3]), ("zz12", [2])]], [[([18], [3])]]⟩ 0 [18] := by
  refine ⟨rfl, rfl, rfl, rfl, rfl, by decide⟩

/-- C1, amended — load idempotence for stores whose root starts with empty
column directories: after opening a store on a fresh root and applying any
sequence of successful write transactions, reopening from the resulting
disk yields exactly the same disk and the same mirror. -/
theorem load_idempotent_fresh_root :
    ∀ (n : Nat) (txns : List (List DBOp)) (s₀ s : Store),
      openStore n (List.replicate n []) = .ok s₀ →
      applyTxns s₀ txns = .ok s →
      openStore n s.disk = .ok ⟨s.disk, s.mirror⟩ := by
  intro n txns s₀ s hopen happly
  have hfresh : s₀ = ⟨List.replicate n [], List.replicate n []⟩ := by
    have hnorm : normCols n (List.replicate n []) = List.replicate n [] :=
      normCols_id _ n (List.length_replicate _ _)
    have hmapnil : (List.replicate n ([] : MirrorCol)).map mapF
        = List.replicate n ([] : DiskCol) := by
      rw [List.map_replicate]
      rfl
    have hops : openOpsFrom 0 (List.replicate n []) = .ok [] := by
      have h2 := openOpsFrom_mapF (List.replicate n []) 0
      rw [hmapnil, opsFor_replicate_nil] at h2
      exact h2
    rw [openStore] at hopen
    rw [hnorm, hops] at hopen
    have hs : Except.ok (Store.mk (List.replicate n [])
        (mirrorWrite (List.replicate n []) [])) = Except.ok s₀ := hopen
    injection hs with hs'
    rw [← hs']
    rfl
  have hinv₀ : storeInv n s₀ := by
    rw [hfresh]
    exact storeInv_fresh n
  have hinv : storeInv n s := applyTxns_inv n txns s₀ s hinv₀ happly
  exact openStore_inv n s hinv

/-- C1, witness — the amended statement evaluated on a one-column store
and the single transaction `[insert 0 [5] [7]]`. -/
theorem load_idempotent_fresh_root_wit :
    openStore 1 [[("0x05", [7])]] = .ok ⟨[[("0x05", [7])]], [[([5], [7])]]⟩ :=
  load_idempotent_fresh_root 1 [[DBOp.insert 0 [5] [7]]]
    ⟨[[]], [[]]⟩ ⟨[[("0x05", [7])]], [[([5], [7])]]⟩ rfl rfl
